import Mathlib

/-!
Verification of the MasseyRamanujan GCF search engine
(`src/source/GCFEnumerator.py`) against its specification.

The Python module is shallowly embedded below.  Python's arbitrary-precision
integers become `ℤ`; the `mpmath` arbitrary-precision reals that appear in the
numerically relevant places are modelled as exact rationals `ℚ`; Python's
`int(...)` truncation toward zero becomes `pyint`.  External collaborators of
the module (the LHS hash table, the series generators, `mpmath.nstr`, and
`mobius.EfficientGCF`) are modelled from the spec's interface descriptions,
as parameters or as clearly marked spec-modelled definitions.
-/

/-! ### Global hyper-parameters (lines 30-35 of GCFEnumerator.py) -/

def g_N_verify_terms : ℕ := 1000

def g_N_verify_compare_length : ℕ := 100

def g_N_verify_dps : ℕ := 2000

def g_N_initial_search_terms : ℕ := 32

def g_N_initial_key_length : ℕ := 10

def g_N_initial_search_dps : ℕ := 50

/-- `self.threshold = 1 * 10 ** (-g_N_initial_key_length)` (line 67). -/
def threshold : ℚ := 1 / 10 ^ g_N_initial_key_length

/-- `key_factor = 1 / self.threshold` (line 164). -/
def key_factor : ℚ := 1 / threshold

/-- Python's `int(...)` applied to a real value: truncation toward zero. -/
def pyint (x : ℚ) : ℤ := if 0 ≤ x then ⌊x⌋ else ⌈x⌉

/-! ### The GCF recurrence (`efficient_gcf_calculation`, lines 135-156)

The loop state is the pair `(p, q)` together with the previous pair
`(prev_p, prev_q)`; iteration `i` consumes `a_[i]` and `b_[i-1]`, i.e. the
zipped list `a_.tail.zip b_`. -/

/-- One pass of the loop of `efficient_gcf_calculation` (lines 145-151):
given current `(p, q)`, previous `(prev_p, prev_q)`, and the remaining
`(a_[i], b_[i-1])` pairs, return the final `(p, q)`. -/
def gcfLoop : ℤ × ℤ → ℤ × ℤ → List (ℤ × ℤ) → ℤ × ℤ
  | pq, _, [] => pq
  | (p, q), (pp, qq), (a, b) :: rest => gcfLoop (a * p + b * pp, a * q + b * qq) (p, q) rest

/-- Final `(p, q)` computed by `efficient_gcf_calculation` on term lists
`a_`, `b_`: start from `p = a_[0]`, `q = 1`, `prev_p = 1`, `prev_q = 0`
(lines 141-144) and run the loop over `(a_[i], b_[i-1])` for `i = 1..L-1`. -/
def efficientGcfPQ (a b : List ℤ) : ℤ × ℤ :=
  gcfLoop (a.headI, 1) (1, 0) (a.tail.zip b)

/-- The value computed by `efficient_gcf_calculation` before quantization
(lines 152-155): `p / q`, with the sentinel `0` when `q == 0`. -/
def efficient_gcf_value (a b : List ℤ) : ℚ :=
  if (efficientGcfPQ a b).2 = 0 then 0
  else ((efficientGcfPQ a b).1 : ℚ) / ((efficientGcfPQ a b).2 : ℚ)

/-- The hash key returned by `efficient_gcf_calculation` (line 156):
`int(value * key_factor)`. -/
def efficient_gcf_key (a b : List ℤ) : ℤ :=
  pyint (efficient_gcf_value a b * key_factor)

/-! ### Reference big-rational continued-fraction expansion

The reference evaluator demanded by the spec (§8.1): evaluate
`a_0 + b_0 / (a_1 + b_1 / (a_2 + ...))` from the back, carrying an exact
big-rational numerator/denominator pair (so that intermediate infinities are
representable), and take the quotient at the end. -/

/-- Backward big-rational evaluation of the continued fraction with head `a0`
and remaining partial pairs `(a_i, b_{i-1})`: returns the exact
(numerator, denominator) of `a0 + b_0 / (a_1 + b_1 / ...)`. -/
def cfBackPair : ℤ → List (ℤ × ℤ) → ℤ × ℤ
  | a0, [] => (a0, 1)
  | a0, (a, b) :: rest =>
    let nd := cfBackPair a rest
    (a0 * nd.1 + b * nd.2, nd.1)

/-- Reference continued-fraction value of term lists `a`, `b` (the spec's
"reference big-rational continued-fraction expansion"): quotient of the
backward numerator/denominator pair. -/
def referenceGcfValue (a b : List ℤ) : ℚ :=
  let nd := cfBackPair a.headI (a.tail.zip b)
  (nd.1 : ℚ) / (nd.2 : ℚ)

/-- Universal coefficients of the forward recurrence: `cfH l = (H1, H2)` such
that running `gcfLoop` over `l` from state `(p, q), (pp, qq)` yields
`(H1*p + H2*pp, H1*q + H2*qq)`. -/
def cfH : List (ℤ × ℤ) → ℤ × ℤ
  | [] => (1, 0)
  | (a, b) :: l => (a * (cfH l).1 + (cfH l).2, b * (cfH l).1)

/-! ### First enumeration (`__first_enumeration`, lines 158-229)

The series generators are external collaborators (spec §6): they are
modelled as parameters `create_an_series`/`create_bn_series` of type
`List ℤ → ℕ → List ℤ` (coefficient tuple and term count to integer
sequence).  The coefficient iterators and the generators' `count` are
modelled by the same list of coefficient tuples, as the interface demands.
The LHS hash table only enters this pass through its membership test
(line 189, `key in self.hash_table`), modelled as a predicate `ℤ → Bool`. -/

/-- Intermediate result (line 25):
`Match = namedtuple('Match', 'lhs_key rhs_an_poly rhs_bn_poly')`. -/
structure GcfMatch where
  lhs_key : ℤ
  rhs_an_poly : List ℤ
  rhs_bn_poly : List ℤ
deriving DecidableEq, Repr

/-- `itertools.compress(data, selectors)`: keep the elements of `data` whose
parallel selector is true. -/
def compress {α : Type} : List α → List Bool → List α
  | [], _ => []
  | _, [] => []
  | x :: xs, s :: ss => if s then x :: compress xs ss else compress xs ss

/-- The zero filter of `__create_series_list` (lines 109-112): with
`filter_from_1` the zeroth term is exempt (`0 not in an[1:]`), otherwise
every term is checked (`0 not in an`). -/
def seriesFilterOK (filter_from_1 : Bool) (s : List ℤ) : Bool :=
  if filter_from_1 then decide (0 ∉ s.tail) else decide (0 ∉ s)

/-- `__create_series_list` (lines 101-115): generate the series of every
coefficient tuple at `g_N_initial_search_terms` terms, then compress both the
coefficient list and the series list by the zero filter. -/
def createSeriesList (coefficient_iter : List (List ℤ))
    (series_generator : List ℤ → ℕ → List ℤ) (filter_from_1 : Bool) :
    List (List ℤ) × List (List ℤ) :=
  let series_list := coefficient_iter.map fun c => series_generator c g_N_initial_search_terms
  let series_filter := series_list.map (seriesFilterOK filter_from_1)
  (compress coefficient_iter series_filter, compress series_list series_filter)

/-- The `size_a > size_b` branch of `__first_enumeration` (lines 170-197):
cache the filtered `{b_n}` side, stream `a` coefficients, skip a streamed
tuple when `0 in an[1:]`, and record one probe (GCF evaluation + hash-table
lookup) per inner iteration.  A probe is recorded as the `GcfMatch` it would
append on a hit. -/
def probesCachingB (a_coef_iter b_coef_iter : List (List ℤ))
    (create_an_series create_bn_series : List ℤ → ℕ → List ℤ) : List GcfMatch :=
  let cb := createSeriesList b_coef_iter create_bn_series false
  a_coef_iter.flatMap fun a_coef =>
    let an := create_an_series a_coef g_N_initial_search_terms
    if 0 ∈ an.tail then []
    else (cb.2.zip cb.1).map fun bn_coef =>
      ⟨efficient_gcf_key an bn_coef.1, a_coef, bn_coef.2⟩

/-- The `size_a ≤ size_b` branch of `__first_enumeration` (lines 199-225):
cache the filtered `{a_n}` side (`filter_from_1 = true`), stream `b`
coefficients, skip a streamed tuple when `0 in bn`. -/
def probesCachingA (a_coef_iter b_coef_iter : List (List ℤ))
    (create_an_series create_bn_series : List ℤ → ℕ → List ℤ) : List GcfMatch :=
  let ca := createSeriesList a_coef_iter create_an_series true
  b_coef_iter.flatMap fun b_coef =>
    let bn := create_bn_series b_coef g_N_initial_search_terms
    if 0 ∈ bn then []
    else (ca.2.zip ca.1).map fun an_coef =>
      ⟨efficient_gcf_key an_coef.1 bn, an_coef.2, b_coef⟩

/-- All probes (GCF evaluation + hash-table membership test events) of
`__first_enumeration`, in execution order; the branch is chosen by
`size_a > size_b` (line 170). -/
def firstEnumerationProbes (a_coef_iter b_coef_iter : List (List ℤ))
    (create_an_series create_bn_series : List ℤ → ℕ → List ℤ) : List GcfMatch :=
  if a_coef_iter.length > b_coef_iter.length then
    probesCachingB a_coef_iter b_coef_iter create_an_series create_bn_series
  else
    probesCachingA a_coef_iter b_coef_iter create_an_series create_bn_series

/-- The intermediate results returned by `__first_enumeration`: of all
probes, exactly those whose key is in the hash table are appended
(lines 189-190 and 217-218). -/
def firstEnumeration (a_coef_iter b_coef_iter : List (List ℤ))
    (create_an_series create_bn_series : List ℤ → ℕ → List ℤ)
    (hash_table : ℤ → Bool) : List GcfMatch :=
  (firstEnumerationProbes a_coef_iter b_coef_iter create_an_series create_bn_series).filter
    fun m => hash_table m.lhs_key

/-- The (a-coefficient, b-coefficient) pair probed by a probe event. -/
def probePairs (a_coef_iter b_coef_iter : List (List ℤ))
    (create_an_series create_bn_series : List ℤ → ℕ → List ℤ) : List (List ℤ × List ℤ) :=
  (firstEnumerationProbes a_coef_iter b_coef_iter create_an_series create_bn_series).map
    fun m => (m.rhs_an_poly, m.rhs_bn_poly)

/-! ### Refinement (`__refine_results`, lines 231-272, and `refine_results`,
lines 351-358)

`self.hash_table.evaluate` belongs to the external `LHSHashTable` (spec §6):
it either returns the list of high-precision candidate values for a key, or
fails with a lookup error / division-by-zero error.  It is modelled as a
parameter `ℤ → Except EvalError (List MVal)`.  `mpmath` values can be
infinite or NaN, hence `MVal`. -/

/-- A high-precision `mpmath` value as seen by the refinement pass. -/
inductive MVal where
  | fin (x : ℚ)
  | inf
  | nan
deriving DecidableEq, Repr

/-- `mpmath.isinf` (line 251). -/
def mpmath_isinf : MVal → Bool
  | .inf => true
  | _ => false

/-- `mpmath.isnan` (line 251). -/
def mpmath_isnan : MVal → Bool
  | .nan => true
  | _ => false

/-- The two exception kinds caught on line 255:
`except (ZeroDivisionError, KeyError)`. -/
inductive EvalError where
  | zeroDivisionError
  | keyError
deriving DecidableEq, Repr

/-- Final result (line 26): `RefinedMatch = namedtuple('Match',
'lhs_key rhs_an_poly rhs_bn_poly lhs_match_idx')`. -/
structure RefinedMatch where
  lhs_key : ℤ
  rhs_an_poly : List ℤ
  rhs_bn_poly : List ℤ
  lhs_match_idx : ℕ
deriving DecidableEq, Repr

/-- Base-10 logarithm on `ℕ` by fuelled structural recursion (so that it
reduces in the kernel): `log10fuel fuel n` counts how often `n` can be
divided by 10 before dropping below 10. -/
def log10fuel : ℕ → ℕ → ℕ
  | 0, _ => 0
  | fuel + 1, n => if n < 10 then 0 else log10fuel fuel (n / 10) + 1

/-- Base-10 logarithm on `ℕ`: greatest `k` with `10 ^ k ≤ n` (and `0` for
`n = 0`). -/
def natLog10 (n : ℕ) : ℕ := log10fuel n n

/-- Decimal exponent of a nonzero rational: the unique `e` with
`10 ^ e ≤ |x| < 10 ^ (e + 1)` (junk value for `x = 0`). -/
def decExponent (x : ℚ) : ℤ :=
  let p := x.num.natAbs
  let q := x.den
  if q ≤ p then (natLog10 (p / q) : ℤ)
  else
    let k := natLog10 (q / p)
    if |x| * (10 : ℚ) ^ k = 1 then -(k : ℤ) else -(k : ℤ) - 1

/-- Modelled from the spec: `mpmath.nstr(value, d)` — the decimal string of
`value` to `d` significant digits (spec §4.3 step 4: "Render the GCF value
and each LHS candidate value as decimal strings truncated/rounded to a fixed
comparison length (100 significant digits)").  `mpmath` is an external
library, absent from src/; the rendered string of a finite nonzero value is
represented canonically by the pair (signed 100-digit mantissa, decimal
exponent), i.e. exactly the data a reader recovers from the string. -/
def nstrModel (d : ℕ) (x : ℚ) : ℤ × ℤ :=
  if x = 0 then (0, 0)
  else
    let e := decExponent x
    let m := ⌊|x| * (10 : ℚ) ^ ((d : ℤ) - 1 - e)⌋
    (if x < 0 then -m else m, e)

/-- The possible rendered strings: a finite number, `+inf`/`-inf`, or `nan`
(`mpmath.nstr` renders the three cases distinctly). -/
inductive RStr where
  | num (me : ℤ × ℤ)
  | infStr
  | nanStr
deriving DecidableEq, Repr

/-- Rendering of a high-precision value at the verification comparison
length (`mpmath.nstr(val, g_N_verify_compare_length)`, lines 262 and 265). -/
def mvalNstr : MVal → RStr
  | .fin x => .num (nstrModel g_N_verify_compare_length x)
  | .inf => .infStr
  | .nan => .nanStr

/-- Modelled from the spec: `mobius.EfficientGCF(an, bn).evaluate()`
(line 261) — repository code absent from src/.  Per spec §4.1 (and the
line 138 comment, which says `efficient_gcf_calculation` was moved here from
`mobius.EfficientGCF`), it evaluates the same classical three-term recurrence
with the same zero-denominator sentinel. -/
def EfficientGCF_evaluate (an bn : List ℤ) : ℚ := efficient_gcf_value an bn

/-- Outcome of processing one intermediate match in `__refine_results`:
dropped by the `except` clause (line 255), dropped with a printed diagnostic
by the inf/NaN check (lines 251-254), or checked against all LHS candidates,
emitting one `RefinedMatch` per string match (lines 258-270). -/
inductive RefineOutcome where
  | droppedError (e : EvalError)
  | droppedAnomaly
  | checked (emitted : List RefinedMatch)
deriving DecidableEq, Repr

/-- The per-candidate body of the loop of `__refine_results`
(lines 242-270). -/
def refineStep (evaluate : ℤ → Except EvalError (List MVal))
    (create_an_series create_bn_series : List ℤ → ℕ → List ℤ)
    (res : GcfMatch) : RefineOutcome :=
  match evaluate res.lhs_key with
  | .error e => .droppedError e
  | .ok all_matches =>
    if all_matches.all fun val => !(mpmath_isinf val || mpmath_isnan val) then
      let an := create_an_series res.rhs_an_poly g_N_verify_terms
      let bn := create_bn_series res.rhs_bn_poly g_N_verify_terms
      let rhs_str := RStr.num (nstrModel g_N_verify_compare_length (EfficientGCF_evaluate an bn))
      .checked (all_matches.enum.filterMap fun iv =>
        if mvalNstr iv.2 = rhs_str then
          some ⟨res.lhs_key, res.rhs_an_poly, res.rhs_bn_poly, iv.1⟩
        else none)
    else .droppedAnomaly

/-- The refined matches a processed candidate contributes to `results`. -/
def outcomeEmitted : RefineOutcome → List RefinedMatch
  | .checked l => l
  | _ => []

/-- `__refine_results` (lines 231-272): process every intermediate match in
order; each contributes its emitted refined matches. -/
def refineResults (evaluate : ℤ → Except EvalError (List MVal))
    (create_an_series create_bn_series : List ℤ → ℕ → List ℤ)
    (intermediate_results : List GcfMatch) : List RefinedMatch :=
  (intermediate_results.map
    (refineStep evaluate create_an_series create_bn_series)).flatMap outcomeEmitted

/-- The working precision installed around the whole refinement phase
(line 352): `mpmath.workdps(self.verify_dps * 2)`. -/
def refineWorkdps : ℕ := g_N_verify_dps * 2

/-! ## Theorems -/

/-! ### GCF recurrence (claims C1, C6) -/

theorem gcfLoop_eq_cfH (l : List (ℤ × ℤ)) :
    ∀ p q pp qq : ℤ, gcfLoop (p, q) (pp, qq) l =
      ((cfH l).1 * p + (cfH l).2 * pp, (cfH l).1 * q + (cfH l).2 * qq) := by
  induction l with
  | nil => intro p q pp qq; simp [gcfLoop, cfH]
  | cons hd tl ih =>
    intro p q pp qq
    obtain ⟨a, b⟩ := hd
    simp only [gcfLoop, cfH, ih, Prod.mk.injEq]
    constructor <;> ring

theorem cfBackPair_eq_cfH (l : List (ℤ × ℤ)) :
    ∀ a0 : ℤ, cfBackPair a0 l = ((cfH l).1 * a0 + (cfH l).2, (cfH l).1) := by
  induction l with
  | nil => intro a0; simp [cfBackPair, cfH]
  | cons hd tl ih =>
    intro a0
    obtain ⟨a, b⟩ := hd
    simp only [cfBackPair, cfH, ih, Prod.mk.injEq]
    constructor <;> ring

/-- The forward loop of `efficient_gcf_calculation` lands on exactly the
backward big-rational numerator/denominator pair. -/
theorem efficientGcfPQ_eq_cfBackPair (a b : List ℤ) :
    efficientGcfPQ a b = cfBackPair a.headI (a.tail.zip b) := by
  rw [efficientGcfPQ, gcfLoop_eq_cfH, cfBackPair_eq_cfH]
  simp

/-- C1: for integer term lists of equal length `L ≥ 1`, the first-pass GCF
evaluation computes exactly the value `P_{L-1}/Q_{L-1}` of the classical
three-term recurrence: whenever the final denominator `Q_{L-1}` is nonzero,
its value equals the quotient produced by the reference big-rational
continued-fraction expansion. -/
theorem claim_C1_gcf_value_eq_reference (a b : List ℤ)
    (hlen : a.length = b.length) (hL : 1 ≤ a.length)
    (hq : (efficientGcfPQ a b).2 ≠ 0) :
    efficient_gcf_value a b = referenceGcfValue a b := by
  rw [efficient_gcf_value, if_neg hq, referenceGcfValue]
  rw [efficientGcfPQ_eq_cfBackPair]

theorem claim_C1_witness :
    ([1, 1, 1] : List ℤ).length = ([1, 1, 1] : List ℤ).length ∧
      1 ≤ ([1, 1, 1] : List ℤ).length ∧
      (efficientGcfPQ [1, 1, 1] [1, 1, 1]).2 ≠ 0 ∧
      efficient_gcf_value [1, 1, 1] [1, 1, 1] = referenceGcfValue [1, 1, 1] [1, 1, 1] :=
  ⟨rfl, by decide, by decide,
    claim_C1_gcf_value_eq_reference [1, 1, 1] [1, 1, 1] rfl (by decide) (by decide)⟩

/-- C6: whenever the recurrence drives the final denominator `Q_{L-1}` to
exactly zero, the first-pass GCF evaluation (a total function in this
embedding, so it raises no error) deterministically returns the sentinel
value zero. -/
theorem claim_C6_zero_denominator_sentinel (a b : List ℤ)
    (hq : (efficientGcfPQ a b).2 = 0) :
    efficient_gcf_value a b = 0 := by
  rw [efficient_gcf_value, if_pos hq]

theorem claim_C6_witness :
    (efficientGcfPQ [1, 0] [1, 1]).2 = 0 ∧ efficient_gcf_value [1, 0] [1, 1] = 0 :=
  ⟨by decide, claim_C6_zero_denominator_sentinel [1, 0] [1, 1] (by decide)⟩

/-! ### Quantization (claim C3) -/

/-- Truncation toward zero moves by at most one step when its argument moves
by at most one. -/
theorem pyint_sub_natAbs_le_one (x y : ℚ) (h : |x - y| ≤ 1) :
    (pyint x - pyint y).natAbs ≤ 1 := by
  rw [abs_sub_le_iff] at h
  obtain ⟨h1, h2⟩ := h
  have hxy : x ≤ y + 1 := by linarith
  have hyx : y ≤ x + 1 := by linarith
  unfold pyint
  split_ifs with hx hy hy
  · have e1 : ⌊x⌋ ≤ ⌊y⌋ + 1 := by
      have := Int.floor_mono hxy
      rwa [Int.floor_add_one] at this
    have e2 : ⌊y⌋ ≤ ⌊x⌋ + 1 := by
      have := Int.floor_mono hyx
      rwa [Int.floor_add_one] at this
    omega
  · push_neg at hy
    have hfx : ⌊x⌋ = 0 := by
      have hge : 0 ≤ ⌊x⌋ := Int.floor_nonneg.mpr hx
      have hlt : ⌊x⌋ < 1 := by
        rw [Int.floor_lt]
        push_cast
        linarith
      omega
    have hc1 : ⌈y⌉ ≤ 0 := by
      rw [Int.ceil_le]
      push_cast
      linarith
    have hc2 : -1 ≤ ⌈y⌉ := by
      have hy1 : (-1 : ℚ) ≤ y := by linarith
      have := hy1.trans (Int.le_ceil y)
      exact_mod_cast this
    omega
  · push_neg at hx
    have hfy : ⌊y⌋ = 0 := by
      have hge : 0 ≤ ⌊y⌋ := Int.floor_nonneg.mpr hy
      have hlt : ⌊y⌋ < 1 := by
        rw [Int.floor_lt]
        push_cast
        linarith
      omega
    have hc1 : ⌈x⌉ ≤ 0 := by
      rw [Int.ceil_le]
      push_cast
      linarith
    have hc2 : -1 ≤ ⌈x⌉ := by
      have hx1 : (-1 : ℚ) ≤ x := by linarith
      have := hx1.trans (Int.le_ceil x)
      exact_mod_cast this
    omega
  · have e1 : ⌈x⌉ ≤ ⌈y⌉ + 1 := by
      have := Int.ceil_mono hxy
      rwa [Int.ceil_add_one] at this
    have e2 : ⌈y⌉ ≤ ⌈x⌉ + 1 := by
      have := Int.ceil_mono hyx
      rwa [Int.ceil_add_one] at this
    omega

/-- C3: two GCF values within the configured threshold (default `1e-10`) of
each other are quantized by `int(value * (1/threshold))` to hash keys that
are either equal or differ by exactly one. -/
theorem claim_C3_quantization_adjacent (a1 b1 a2 b2 : List ℤ)
    (h : |efficient_gcf_value a1 b1 - efficient_gcf_value a2 b2| ≤ threshold) :
    efficient_gcf_key a1 b1 = efficient_gcf_key a2 b2 ∨
      (efficient_gcf_key a1 b1 - efficient_gcf_key a2 b2).natAbs = 1 := by
  have hkf : (0 : ℚ) ≤ key_factor := by
    norm_num [key_factor, threshold, g_N_initial_key_length]
  have hone : threshold * key_factor = 1 := by
    norm_num [key_factor, threshold, g_N_initial_key_length]
  have hmul : |efficient_gcf_value a1 b1 * key_factor -
      efficient_gcf_value a2 b2 * key_factor| ≤ 1 := by
    rw [← sub_mul, abs_mul, abs_of_nonneg hkf, ← hone]
    exact mul_le_mul_of_nonneg_right h hkf
  have hadj := pyint_sub_natAbs_le_one _ _ hmul
  rw [efficient_gcf_key, efficient_gcf_key]
  omega

theorem claim_C3_witness :
    |efficient_gcf_value [1, 1, 1] [1, 1, 1] - efficient_gcf_value [1, 1, 1] [1, 1, 1]| ≤
        threshold ∧
      (efficient_gcf_key [1, 1, 1] [1, 1, 1] = efficient_gcf_key [1, 1, 1] [1, 1, 1] ∨
        (efficient_gcf_key [1, 1, 1] [1, 1, 1] - efficient_gcf_key [1, 1, 1] [1, 1, 1]).natAbs = 1) :=
  ⟨by norm_num [threshold], claim_C3_quantization_adjacent [1, 1, 1] [1, 1, 1] [1, 1, 1] [1, 1, 1]
    (by norm_num [threshold])⟩

/-! ### First enumeration: structure of the probe list (claims C4, C5, C8, C10) -/

theorem compress_map_self {α : Type} (l : List α) (p : α → Bool) :
    compress l (l.map p) = l.filter p := by
  induction l with
  | nil => rfl
  | cons x xs ih => cases hp : p x <;> simp [compress, List.filter_cons, hp, ih]

theorem compress_map_map {α β : Type} (l : List α) (f : α → β) (p : α → Bool) :
    compress (l.map f) (l.map p) = (l.filter p).map f := by
  induction l with
  | nil => rfl
  | cons x xs ih => cases hp : p x <;> simp [compress, List.filter_cons, hp, ih]

theorem createSeriesList_eq (coefs : List (List ℤ)) (gen : List ℤ → ℕ → List ℤ) (ff : Bool) :
    createSeriesList coefs gen ff =
      (coefs.filter fun c => seriesFilterOK ff (gen c g_N_initial_search_terms),
        (coefs.filter fun c => seriesFilterOK ff (gen c g_N_initial_search_terms)).map
          fun c => gen c g_N_initial_search_terms) := by
  unfold createSeriesList
  dsimp only
  rw [List.map_map, compress_map_self, compress_map_map]
  simp [Function.comp_def]

theorem map_zip_self {α β : Type} (F : List α) (g : α → β) :
    (F.map g).zip F = F.map fun c => (g c, c) := by
  induction F with
  | nil => rfl
  | cons x xs ih => simp [ih]

theorem mem_ite_nil_iff {α : Type} (c : Prop) [Decidable c] (l : List α) (a : α) :
    (a ∈ if c then ([] : List α) else l) ↔ ¬c ∧ a ∈ l := by
  split_ifs with h <;> simp [h]

theorem probesCachingB_eq (aIt bIt : List (List ℤ)) (gA gB : List ℤ → ℕ → List ℤ) :
    probesCachingB aIt bIt gA gB =
      aIt.flatMap fun ac =>
        if 0 ∈ (gA ac g_N_initial_search_terms).tail then []
        else (bIt.filter fun bc => seriesFilterOK false (gB bc g_N_initial_search_terms)).map
          fun bc => ⟨efficient_gcf_key (gA ac g_N_initial_search_terms)
            (gB bc g_N_initial_search_terms), ac, bc⟩ := by
  unfold probesCachingB
  rw [createSeriesList_eq]
  dsimp only
  simp only [map_zip_self, List.map_map]
  simp [Function.comp_def]

theorem probesCachingA_eq (aIt bIt : List (List ℤ)) (gA gB : List ℤ → ℕ → List ℤ) :
    probesCachingA aIt bIt gA gB =
      bIt.flatMap fun bc =>
        if 0 ∈ gB bc g_N_initial_search_terms then []
        else (aIt.filter fun ac => seriesFilterOK true (gA ac g_N_initial_search_terms)).map
          fun ac => ⟨efficient_gcf_key (gA ac g_N_initial_search_terms)
            (gB bc g_N_initial_search_terms), ac, bc⟩ := by
  unfold probesCachingA
  rw [createSeriesList_eq]
  dsimp only
  simp only [map_zip_self, List.map_map]
  simp [Function.comp_def]

theorem seriesFilterOK_false_iff (s : List ℤ) : seriesFilterOK false s = true ↔ 0 ∉ s := by
  simp [seriesFilterOK]

theorem seriesFilterOK_true_iff (s : List ℤ) : seriesFilterOK true s = true ↔ 0 ∉ s.tail := by
  simp [seriesFilterOK]

theorem mem_probesCachingB_iff (aIt bIt : List (List ℤ)) (gA gB : List ℤ → ℕ → List ℤ)
    (m : GcfMatch) :
    m ∈ probesCachingB aIt bIt gA gB ↔
      ∃ ac bc, ac ∈ aIt ∧ bc ∈ bIt ∧
        0 ∉ (gA ac g_N_initial_search_terms).tail ∧ 0 ∉ gB bc g_N_initial_search_terms ∧
        m = ⟨efficient_gcf_key (gA ac g_N_initial_search_terms)
          (gB bc g_N_initial_search_terms), ac, bc⟩ := by
  rw [probesCachingB_eq]
  simp only [List.mem_flatMap, mem_ite_nil_iff, List.mem_map, List.mem_filter]
  constructor
  · rintro ⟨ac, hac, hta, bc, ⟨hbc, hok⟩, rfl⟩
    exact ⟨ac, bc, hac, hbc, hta, (seriesFilterOK_false_iff _).mp hok, rfl⟩
  · rintro ⟨ac, bc, hac, hbc, hta, hok, rfl⟩
    exact ⟨ac, hac, hta, bc, ⟨hbc, (seriesFilterOK_false_iff _).mpr hok⟩, rfl⟩

theorem mem_probesCachingA_iff (aIt bIt : List (List ℤ)) (gA gB : List ℤ → ℕ → List ℤ)
    (m : GcfMatch) :
    m ∈ probesCachingA aIt bIt gA gB ↔
      ∃ ac bc, ac ∈ aIt ∧ bc ∈ bIt ∧
        0 ∉ (gA ac g_N_initial_search_terms).tail ∧ 0 ∉ gB bc g_N_initial_search_terms ∧
        m = ⟨efficient_gcf_key (gA ac g_N_initial_search_terms)
          (gB bc g_N_initial_search_terms), ac, bc⟩ := by
  rw [probesCachingA_eq]
  simp only [List.mem_flatMap, mem_ite_nil_iff, List.mem_map, List.mem_filter]
  constructor
  · rintro ⟨bc, hbc, htb, ac, ⟨hac, hok⟩, rfl⟩
    exact ⟨ac, bc, hac, hbc, (seriesFilterOK_true_iff _).mp hok, htb, rfl⟩
  · rintro ⟨ac, bc, hac, hbc, hta, hok, rfl⟩
    exact ⟨bc, hbc, hok, ac, ⟨hac, (seriesFilterOK_true_iff _).mpr hta⟩, rfl⟩

theorem mem_firstEnumerationProbes_iff (aIt bIt : List (List ℤ))
    (gA gB : List ℤ → ℕ → List ℤ) (m : GcfMatch) :
    m ∈ firstEnumerationProbes aIt bIt gA gB ↔
      ∃ ac bc, ac ∈ aIt ∧ bc ∈ bIt ∧
        0 ∉ (gA ac g_N_initial_search_terms).tail ∧ 0 ∉ gB bc g_N_initial_search_terms ∧
        m = ⟨efficient_gcf_key (gA ac g_N_initial_search_terms)
          (gB bc g_N_initial_search_terms), ac, bc⟩ := by
  unfold firstEnumerationProbes
  split_ifs with h
  · exact mem_probesCachingB_iff aIt bIt gA gB m
  · exact mem_probesCachingA_iff aIt bIt gA gB m

theorem count_map_section {α β γ : Type} [DecidableEq α] [DecidableEq β]
    [BEq γ] [LawfulBEq γ]
    (g : α → β → γ) (hg : ∀ a a2 b b2, g a b = g a2 b2 → a = a2 ∧ b = b2)
    (F : List β) (x x0 : α) (y0 : β) :
    (F.map (g x)).count (g x0 y0) = if x = x0 then F.count y0 else 0 := by
  induction F with
  | nil => simp
  | cons b F ih =>
    rw [List.map_cons, List.count_cons, ih, List.count_cons]
    by_cases hx : x = x0
    · subst hx
      rw [if_pos rfl, if_pos rfl]
      by_cases hb : b = y0
      · subst hb
        rw [if_pos (beq_iff_eq.mpr rfl), if_pos (beq_iff_eq.mpr rfl)]
      · have h1 : ¬(g x b == g x y0) = true := by
          rw [beq_iff_eq]
          intro h
          exact hb (hg _ _ _ _ h).2
        have h2 : ¬(b == y0) = true := by
          rw [beq_iff_eq]
          exact hb
        rw [if_neg h1, if_neg h2]
    · rw [if_neg hx, if_neg hx]
      have h1 : ¬(g x b == g x0 y0) = true := by
        rw [beq_iff_eq]
        intro h
        exact hx (hg _ _ _ _ h).1
      rw [if_neg h1]

theorem count_flatMap_ite {α β γ : Type} [DecidableEq α] [DecidableEq β]
    [BEq γ] [LawfulBEq γ]
    (l : List α) (hl : l.Nodup) (P : α → Prop) [DecidablePred P] (F : List β)
    (g : α → β → γ) (hg : ∀ a a2 b b2, g a b = g a2 b2 → a = a2 ∧ b = b2)
    (x0 : α) (y0 : β) :
    (l.flatMap fun x => if P x then [] else F.map (g x)).count (g x0 y0) =
      if x0 ∈ l ∧ ¬P x0 then F.count y0 else 0 := by
  induction l with
  | nil => simp
  | cons a l ih =>
    rcases List.nodup_cons.mp hl with ⟨ha, hl2⟩
    rw [List.flatMap_cons, List.count_append, ih hl2]
    by_cases hPa : P a
    · rw [if_pos hPa]
      have hcond : (x0 ∈ a :: l ∧ ¬P x0) ↔ (x0 ∈ l ∧ ¬P x0) := by
        constructor
        · rintro ⟨hm, hP⟩
          rcases List.mem_cons.mp hm with h | h
          · subst h
            exact absurd hPa hP
          · exact ⟨h, hP⟩
        · rintro ⟨hm, hP⟩
          exact ⟨List.mem_cons_of_mem a hm, hP⟩
      rw [if_congr hcond rfl rfl]
      simp
    · rw [if_neg hPa, count_map_section g hg F a x0 y0]
      by_cases hax : a = x0
      · subst hax
        have hnotl : ¬(a ∈ l ∧ ¬P a) := fun h => ha h.1
        rw [if_pos rfl, if_neg hnotl, if_pos ⟨List.mem_cons_self a l, hPa⟩]
        simp
      · rw [if_neg hax]
        have hcond : (x0 ∈ a :: l ∧ ¬P x0) ↔ (x0 ∈ l ∧ ¬P x0) := by
          constructor
          · rintro ⟨hm, hP⟩
            rcases List.mem_cons.mp hm with h | h
            · exact absurd h.symm hax
            · exact ⟨h, hP⟩
          · rintro ⟨hm, hP⟩
            exact ⟨List.mem_cons_of_mem a hm, hP⟩
        rw [if_congr hcond rfl rfl]
        omega

theorem count_filter_nodup {β : Type} [DecidableEq β] (F : List β) (hF : F.Nodup)
    (p : β → Bool) (y : β) :
    (F.filter p).count y = if y ∈ F ∧ p y = true then 1 else 0 := by
  by_cases h : y ∈ F ∧ p y = true
  · rw [if_pos h]
    exact List.count_eq_one_of_mem (hF.filter p) (List.mem_filter.mpr ⟨h.1, h.2⟩)
  · rw [if_neg h]
    apply List.count_eq_zero_of_not_mem
    intro hmem
    exact h ⟨(List.mem_filter.mp hmem).1, (List.mem_filter.mp hmem).2⟩

theorem count_probePairs (aIt bIt : List (List ℤ)) (gA gB : List ℤ → ℕ → List ℤ)
    (hA : aIt.Nodup) (hB : bIt.Nodup) (ac bc : List ℤ) :
    (probePairs aIt bIt gA gB).count (ac, bc) =
      if ac ∈ aIt ∧ bc ∈ bIt ∧ 0 ∉ (gA ac g_N_initial_search_terms).tail ∧
          0 ∉ gB bc g_N_initial_search_terms then 1 else 0 := by
  have hinj : ∀ (a a2 : List ℤ) (b b2 : List ℤ),
      ((fun (x : List ℤ) (y : List ℤ) => (x, y)) a b) =
        ((fun (x : List ℤ) (y : List ℤ) => (x, y)) a2 b2) → a = a2 ∧ b = b2 :=
    fun a a2 b b2 h => ⟨congrArg Prod.fst h, congrArg Prod.snd h⟩
  have hinj2 : ∀ (a a2 : List ℤ) (b b2 : List ℤ),
      ((fun (x : List ℤ) (y : List ℤ) => (y, x)) a b) =
        ((fun (x : List ℤ) (y : List ℤ) => (y, x)) a2 b2) → a = a2 ∧ b = b2 :=
    fun a a2 b b2 h => ⟨congrArg Prod.snd h, congrArg Prod.fst h⟩
  unfold probePairs firstEnumerationProbes
  by_cases hlen : aIt.length > bIt.length
  · rw [if_pos hlen, probesCachingB_eq, List.map_flatMap]
    simp only [apply_ite (List.map fun m : GcfMatch => (m.rhs_an_poly, m.rhs_bn_poly)),
      List.map_nil, List.map_map, Function.comp_def]
    have hcnt := count_flatMap_ite aIt hA
      (fun x => 0 ∈ (gA x g_N_initial_search_terms).tail)
      (bIt.filter fun bc2 => seriesFilterOK false (gB bc2 g_N_initial_search_terms))
      (fun (x y : List ℤ) => (x, y)) hinj ac bc
    refine hcnt.trans ?_
    rw [count_filter_nodup bIt hB _ bc]
    simp only [seriesFilterOK_false_iff]
    split_ifs <;> first | rfl | tauto
  · rw [if_neg hlen, probesCachingA_eq, List.map_flatMap]
    simp only [apply_ite (List.map fun m : GcfMatch => (m.rhs_an_poly, m.rhs_bn_poly)),
      List.map_nil, List.map_map, Function.comp_def]
    have hcnt := count_flatMap_ite bIt hB
      (fun x => 0 ∈ gB x g_N_initial_search_terms)
      (aIt.filter fun ac2 => seriesFilterOK true (gA ac2 g_N_initial_search_terms))
      (fun (x y : List ℤ) => (y, x)) hinj2 bc ac
    refine hcnt.trans ?_
    rw [count_filter_nodup aIt hA _ ac]
    simp only [seriesFilterOK_true_iff]
    split_ifs <;> first | rfl | tauto

/-- C4: `__first_enumeration` materializes (caches) the side whose expansion
is smaller — the `{b_n}` side exactly when `size_a > size_b`, else the
`{a_n}` side — and, for duplicate-free coefficient expansions of sizes
`m` and `n`, performs exactly one GCF-evaluation-and-probe for every pair of
the `m × n` product whose generated sequences pass the zero filters, and
none for any other pair: no surviving pair is skipped or visited twice. -/
theorem claim_C4_cartesian_product_exactly_once (a_coef_iter b_coef_iter : List (List ℤ))
    (create_an_series create_bn_series : List ℤ → ℕ → List ℤ)
    (hA : a_coef_iter.Nodup) (hB : b_coef_iter.Nodup) (ac bc : List ℤ) :
    ((probePairs a_coef_iter b_coef_iter create_an_series create_bn_series).count (ac, bc) =
      if ac ∈ a_coef_iter ∧ bc ∈ b_coef_iter ∧
          0 ∉ (create_an_series ac g_N_initial_search_terms).tail ∧
          0 ∉ create_bn_series bc g_N_initial_search_terms then 1 else 0) ∧
      (a_coef_iter.length > b_coef_iter.length →
        firstEnumerationProbes a_coef_iter b_coef_iter create_an_series create_bn_series =
          probesCachingB a_coef_iter b_coef_iter create_an_series create_bn_series) ∧
      (¬a_coef_iter.length > b_coef_iter.length →
        firstEnumerationProbes a_coef_iter b_coef_iter create_an_series create_bn_series =
          probesCachingA a_coef_iter b_coef_iter create_an_series create_bn_series) := by
  refine ⟨count_probePairs a_coef_iter b_coef_iter create_an_series create_bn_series hA hB ac bc,
    fun h => ?_, fun h => ?_⟩
  · rw [firstEnumerationProbes, if_pos h]
  · rw [firstEnumerationProbes, if_neg h]

theorem claim_C4_witness :
    ([[1], [2]] : List (List ℤ)).Nodup ∧ ([[3]] : List (List ℤ)).Nodup ∧
      ((probePairs [[1], [2]] [[3]] (fun c n => List.replicate n c.headI)
          (fun c n => List.replicate n c.headI)).count ([1], [3]) =
        if [1] ∈ ([[1], [2]] : List (List ℤ)) ∧ [3] ∈ ([[3]] : List (List ℤ)) ∧
            (0 : ℤ) ∉ (List.replicate g_N_initial_search_terms ([1] : List ℤ).headI).tail ∧
            (0 : ℤ) ∉ List.replicate g_N_initial_search_terms ([3] : List ℤ).headI
          then 1 else 0) :=
  ⟨by decide, by decide,
    (claim_C4_cartesian_product_exactly_once [[1], [2]] [[3]]
      (fun c n => List.replicate n c.headI) (fun c n => List.replicate n c.headI)
      (by decide) (by decide) [1] [3]).1⟩

/-- C5: a streamed or cached `{a_n}` coefficient tuple is excluded exactly
when its generated sequence has a zero at an index other than 0 (`a_0 = 0`
is legal), and a `{b_n}` tuple exactly when its sequence has a zero
anywhere; the cached side is filtered before caching
(`__create_series_list`) and the streamed side before its inner loop, with
the same asymmetric policy, so a pair is probed iff both tuples pass. -/
theorem claim_C5_asymmetric_zero_filter (a_coef_iter b_coef_iter coefs : List (List ℤ))
    (create_an_series create_bn_series gen : List ℤ → ℕ → List ℤ) (ac bc c : List ℤ) :
    (c ∈ (createSeriesList coefs gen true).1 ↔
        c ∈ coefs ∧ 0 ∉ (gen c g_N_initial_search_terms).tail) ∧
      (c ∈ (createSeriesList coefs gen false).1 ↔
        c ∈ coefs ∧ 0 ∉ gen c g_N_initial_search_terms) ∧
      ((ac, bc) ∈ probePairs a_coef_iter b_coef_iter create_an_series create_bn_series ↔
        ac ∈ a_coef_iter ∧ bc ∈ b_coef_iter ∧
          0 ∉ (create_an_series ac g_N_initial_search_terms).tail ∧
          0 ∉ create_bn_series bc g_N_initial_search_terms) := by
  refine ⟨?_, ?_, ?_⟩
  · rw [createSeriesList_eq]
    simp [List.mem_filter, seriesFilterOK_true_iff]
  · rw [createSeriesList_eq]
    simp [List.mem_filter, seriesFilterOK_false_iff]
  · unfold probePairs
    rw [List.mem_map]
    constructor
    · rintro ⟨m, hm, hpair⟩
      obtain ⟨ac2, bc2, h1, h2, h3, h4, rfl⟩ :=
        (mem_firstEnumerationProbes_iff a_coef_iter b_coef_iter
          create_an_series create_bn_series m).mp hm
      obtain ⟨rfl, rfl⟩ : ac2 = ac ∧ bc2 = bc :=
        ⟨congrArg Prod.fst hpair, congrArg Prod.snd hpair⟩
      exact ⟨h1, h2, h3, h4⟩
    · rintro ⟨h1, h2, h3, h4⟩
      refine ⟨⟨efficient_gcf_key (create_an_series ac g_N_initial_search_terms)
        (create_bn_series bc g_N_initial_search_terms), ac, bc⟩, ?_, rfl⟩
      exact (mem_firstEnumerationProbes_iff a_coef_iter b_coef_iter
        create_an_series create_bn_series _).mpr ⟨ac, bc, h1, h2, h3, h4, rfl⟩

/-- C8: an intermediate match is appended by `__first_enumeration` exactly
when it is built from a pair of original iterator coefficient tuples that
both pass the zero filters and whose quantized GCF key hits the hash table;
the match carries that hash key and the two original coefficient tuples
(not the generated sequences), so zero-filtered tuples never appear in any
intermediate match. -/
theorem claim_C8_match_carries_original_tuples (a_coef_iter b_coef_iter : List (List ℤ))
    (create_an_series create_bn_series : List ℤ → ℕ → List ℤ)
    (hash_table : ℤ → Bool) (m : GcfMatch) :
    m ∈ firstEnumeration a_coef_iter b_coef_iter create_an_series create_bn_series
        hash_table ↔
      ∃ ac bc, ac ∈ a_coef_iter ∧ bc ∈ b_coef_iter ∧
        0 ∉ (create_an_series ac g_N_initial_search_terms).tail ∧
        0 ∉ create_bn_series bc g_N_initial_search_terms ∧
        hash_table (efficient_gcf_key (create_an_series ac g_N_initial_search_terms)
          (create_bn_series bc g_N_initial_search_terms)) = true ∧
        m = ⟨efficient_gcf_key (create_an_series ac g_N_initial_search_terms)
          (create_bn_series bc g_N_initial_search_terms), ac, bc⟩ := by
  unfold firstEnumeration
  rw [List.mem_filter]
  constructor
  · rintro ⟨hm, ht⟩
    obtain ⟨ac, bc, h1, h2, h3, h4, rfl⟩ :=
      (mem_firstEnumerationProbes_iff a_coef_iter b_coef_iter
        create_an_series create_bn_series m).mp hm
    exact ⟨ac, bc, h1, h2, h3, h4, ht, rfl⟩
  · rintro ⟨ac, bc, h1, h2, h3, h4, ht, rfl⟩
    refine ⟨(mem_firstEnumerationProbes_iff a_coef_iter b_coef_iter
      create_an_series create_bn_series _).mpr ⟨ac, bc, h1, h2, h3, h4, rfl⟩, ht⟩

theorem efficient_gcf_key_zero_of_denominator_zero (a b : List ℤ)
    (hq : (efficientGcfPQ a b).2 = 0) : efficient_gcf_key a b = 0 := by
  rw [efficient_gcf_key, efficient_gcf_value, if_pos hq]
  simp [pyint]

/-- C10: a pair whose recurrence denominator is exactly zero is not skipped:
its sentinel value zero is quantized to hash key 0, and that key is probed,
so whenever the hash table contains key 0 (and the pair passes the zero
filters) an intermediate match with key 0 and that pair is emitted. -/
theorem claim_C10_zero_denominator_still_probed (a_coef_iter b_coef_iter : List (List ℤ))
    (create_an_series create_bn_series : List ℤ → ℕ → List ℤ)
    (hash_table : ℤ → Bool) (ac bc : List ℤ)
    (hac : ac ∈ a_coef_iter) (hbc : bc ∈ b_coef_iter)
    (hta : 0 ∉ (create_an_series ac g_N_initial_search_terms).tail)
    (htb : 0 ∉ create_bn_series bc g_N_initial_search_terms)
    (hq : (efficientGcfPQ (create_an_series ac g_N_initial_search_terms)
      (create_bn_series bc g_N_initial_search_terms)).2 = 0)
    (ht : hash_table 0 = true) :
    (⟨0, ac, bc⟩ : GcfMatch) ∈
      firstEnumeration a_coef_iter b_coef_iter create_an_series create_bn_series
        hash_table := by
  have hkey := efficient_gcf_key_zero_of_denominator_zero _ _ hq
  unfold firstEnumeration
  rw [List.mem_filter]
  constructor
  · exact (mem_firstEnumerationProbes_iff a_coef_iter b_coef_iter
      create_an_series create_bn_series _).mpr ⟨ac, bc, hac, hbc, hta, htb, by rw [hkey]⟩
  · exact ht

theorem claim_C10_witness :
    ((0 : ℤ) ∉ ((fun (_ : List ℤ) (n : ℕ) => List.replicate n (1 : ℤ)) [1]
        g_N_initial_search_terms).tail) ∧
      ((0 : ℤ) ∉ (fun (_ : List ℤ) (_ : ℕ) =>
        ([1, -2] ++ List.replicate 28 2 ++ [1, 1] : List ℤ)) [1] g_N_initial_search_terms) ∧
      (efficientGcfPQ
        ((fun (_ : List ℤ) (n : ℕ) => List.replicate n (1 : ℤ)) [1] g_N_initial_search_terms)
        ((fun (_ : List ℤ) (_ : ℕ) => ([1, -2] ++ List.replicate 28 2 ++ [1, 1] : List ℤ)) [1]
          g_N_initial_search_terms)).2 = 0 ∧
      (⟨0, [1], [1]⟩ : GcfMatch) ∈
        firstEnumeration [[1]] [[1]]
          (fun (_ : List ℤ) (n : ℕ) => List.replicate n (1 : ℤ))
          (fun (_ : List ℤ) (_ : ℕ) => ([1, -2] ++ List.replicate 28 2 ++ [1, 1] : List ℤ))
          (fun k => decide (k = 0)) :=
  ⟨by decide, by decide, by decide,
    claim_C10_zero_denominator_still_probed [[1]] [[1]]
      (fun (_ : List ℤ) (n : ℕ) => List.replicate n (1 : ℤ))
      (fun (_ : List ℤ) (_ : ℕ) => ([1, -2] ++ List.replicate 28 2 ++ [1, 1] : List ℤ))
      (fun k => decide (k = 0)) [1] [1]
      (by decide) (by decide) (by decide) (by decide) (by decide) (by decide)⟩

/-! ### Refinement (claims C2, C7, C9) -/

theorem refineResults_cons (evaluate : ℤ → Except EvalError (List MVal))
    (gA gB : List ℤ → ℕ → List ℤ) (res : GcfMatch) (rest : List GcfMatch) :
    refineResults evaluate gA gB (res :: rest) =
      outcomeEmitted (refineStep evaluate gA gB res) ++ refineResults evaluate gA gB rest := by
  simp [refineResults]

theorem refineResults_singleton (evaluate : ℤ → Except EvalError (List MVal))
    (gA gB : List ℤ → ℕ → List ℤ) (res : GcfMatch) :
    refineResults evaluate gA gB [res] = outcomeEmitted (refineStep evaluate gA gB res) := by
  simp [refineResults]

/-- C2: for a surviving intermediate match whose LHS candidate list is all
finite, a refined match with `lhs_match_idx = i` is emitted if and only if
candidate `i` exists and its 100-significant-digit rendering equals the
100-significant-digit rendering of the re-evaluated GCF; agreement of the
renderings (values differing only beyond the comparison length) is exactly
the acceptance criterion, and any difference within the rendered digits
rejects. -/
theorem claim_C2_refined_match_iff_string_equal (evaluate : ℤ → Except EvalError (List MVal))
    (gA gB : List ℤ → ℕ → List ℤ) (res : GcfMatch) (vals : List MVal) (i : ℕ)
    (hok : evaluate res.lhs_key = .ok vals)
    (hfin : ∀ v ∈ vals, mpmath_isinf v = false ∧ mpmath_isnan v = false) :
    ((⟨res.lhs_key, res.rhs_an_poly, res.rhs_bn_poly, i⟩ : RefinedMatch) ∈
        refineResults evaluate gA gB [res]) ↔
      ∃ v, vals[i]? = some v ∧
        mvalNstr v = RStr.num (nstrModel g_N_verify_compare_length
          (EfficientGCF_evaluate (gA res.rhs_an_poly g_N_verify_terms)
            (gB res.rhs_bn_poly g_N_verify_terms))) := by
  have hall : (vals.all fun val => !(mpmath_isinf val || mpmath_isnan val)) = true := by
    rw [List.all_eq_true]
    intro v hv
    obtain ⟨h1, h2⟩ := hfin v hv
    rw [h1, h2]
    rfl
  rw [refineResults_singleton]
  unfold refineStep
  rw [hok]
  dsimp only
  rw [if_pos hall]
  dsimp only [outcomeEmitted]
  rw [List.mem_filterMap]
  constructor
  · rintro ⟨⟨j, v⟩, hmem, hf⟩
    by_cases hs : mvalNstr v = RStr.num (nstrModel g_N_verify_compare_length
        (EfficientGCF_evaluate (gA res.rhs_an_poly g_N_verify_terms)
          (gB res.rhs_bn_poly g_N_verify_terms)))
    · rw [if_pos hs] at hf
      have hj : j = i := congrArg RefinedMatch.lhs_match_idx (Option.some.inj hf)
      subst hj
      exact ⟨v, List.mem_enum_iff_getElem?.mp hmem, hs⟩
    · rw [if_neg hs] at hf
      exact absurd hf (by simp)
  · rintro ⟨v, hget, hs⟩
    exact ⟨(i, v), List.mem_enum_iff_getElem?.mpr hget, by rw [if_pos hs]⟩

theorem claim_C2_witness :
    (∀ v ∈ [MVal.fin (3 / 2)], mpmath_isinf v = false ∧ mpmath_isnan v = false) ∧
      (((⟨0, [1], [1], 0⟩ : RefinedMatch) ∈
          refineResults (fun _ => Except.ok [MVal.fin (3 / 2)])
            (fun (_ : List ℤ) (_ : ℕ) => ([1, 2] : List ℤ))
            (fun (_ : List ℤ) (_ : ℕ) => ([1, 1] : List ℤ)) [⟨0, [1], [1]⟩]) ↔
        ∃ v, ([MVal.fin (3 / 2)])[(0 : ℕ)]? = some v ∧
          mvalNstr v = RStr.num (nstrModel g_N_verify_compare_length
            (EfficientGCF_evaluate
              ((fun (_ : List ℤ) (_ : ℕ) => ([1, 2] : List ℤ)) [1] g_N_verify_terms)
              ((fun (_ : List ℤ) (_ : ℕ) => ([1, 1] : List ℤ)) [1] g_N_verify_terms)))) :=
  ⟨by decide,
    claim_C2_refined_match_iff_string_equal (fun _ => Except.ok [MVal.fin (3 / 2)])
      (fun (_ : List ℤ) (_ : ℕ) => ([1, 2] : List ℤ))
      (fun (_ : List ℤ) (_ : ℕ) => ([1, 1] : List ℤ))
      ⟨0, [1], [1]⟩ [MVal.fin (3 / 2)] 0 rfl (by decide)⟩

/-- C7: during refinement, a lookup error or division-by-zero error drops
the candidate silently; an infinite or NaN candidate value is dropped with
the printed-diagnostic outcome; a candidate none of whose candidate strings
equals the GCF string contributes zero refined matches; and in every case
processing continues with the remaining candidates — no candidate aborts
the batch. -/
theorem claim_C7_refinement_failure_semantics (evaluate : ℤ → Except EvalError (List MVal))
    (gA gB : List ℤ → ℕ → List ℤ) (res : GcfMatch) (rest : List GcfMatch) :
    (refineResults evaluate gA gB (res :: rest) =
        outcomeEmitted (refineStep evaluate gA gB res) ++
          refineResults evaluate gA gB rest) ∧
      (∀ e, evaluate res.lhs_key = .error e →
        refineStep evaluate gA gB res = .droppedError e ∧
          refineResults evaluate gA gB (res :: rest) = refineResults evaluate gA gB rest) ∧
      (∀ vals, evaluate res.lhs_key = .ok vals →
        (∃ v ∈ vals, mpmath_isinf v = true ∨ mpmath_isnan v = true) →
        refineStep evaluate gA gB res = .droppedAnomaly ∧
          refineResults evaluate gA gB (res :: rest) = refineResults evaluate gA gB rest) ∧
      (∀ vals, evaluate res.lhs_key = .ok vals →
        (∀ v ∈ vals, mvalNstr v ≠ RStr.num (nstrModel g_N_verify_compare_length
          (EfficientGCF_evaluate (gA res.rhs_an_poly g_N_verify_terms)
            (gB res.rhs_bn_poly g_N_verify_terms)))) →
        refineResults evaluate gA gB (res :: rest) = refineResults evaluate gA gB rest) := by
  refine ⟨refineResults_cons evaluate gA gB res rest, ?_, ?_, ?_⟩
  · intro e he
    have hstep : refineStep evaluate gA gB res = .droppedError e := by
      unfold refineStep
      rw [he]
    refine ⟨hstep, ?_⟩
    rw [refineResults_cons, hstep]
    rfl
  · rintro vals hok ⟨v, hv, hbad⟩
    have hcond : ¬(vals.all fun val => !(mpmath_isinf val || mpmath_isnan val)) = true := by
      rw [List.all_eq_true]
      intro hall
      have := hall v hv
      rcases hbad with h | h <;> rw [h] at this <;> simp at this
    have hstep : refineStep evaluate gA gB res = .droppedAnomaly := by
      unfold refineStep
      rw [hok]
      dsimp only
      rw [if_neg hcond]
    refine ⟨hstep, ?_⟩
    rw [refineResults_cons, hstep]
    rfl
  · intro vals hok hnone
    rw [refineResults_cons]
    by_cases hall : (vals.all fun val => !(mpmath_isinf val || mpmath_isnan val)) = true
    · have hstep : outcomeEmitted (refineStep evaluate gA gB res) = [] := by
        unfold refineStep
        rw [hok]
        dsimp only
        rw [if_pos hall]
        dsimp only [outcomeEmitted]
        rw [List.filterMap_eq_nil_iff]
        rintro ⟨j, v⟩ hmem
        have hv : v ∈ vals := by
          obtain ⟨hlt, he⟩ := List.getElem?_eq_some.mp (List.mem_enum_iff_getElem?.mp hmem)
          have := List.getElem_mem hlt
          rw [he] at this
          exact this
        rw [if_neg (hnone v hv)]
      rw [hstep]
      rfl
    · have hstep : refineStep evaluate gA gB res = .droppedAnomaly := by
        unfold refineStep
        rw [hok]
        dsimp only
        rw [if_neg hall]
      rw [hstep]
      rfl

theorem claim_C7_witness :
    ((fun (_ : ℤ) => (Except.error EvalError.keyError : Except EvalError (List MVal)))
        (⟨0, [], []⟩ : GcfMatch).lhs_key = .error EvalError.keyError) ∧
      refineResults (fun _ => Except.error EvalError.keyError)
        (fun (_ : List ℤ) (_ : ℕ) => ([] : List ℤ))
        (fun (_ : List ℤ) (_ : ℕ) => ([] : List ℤ)) [⟨0, [], []⟩] = [] :=
  ⟨rfl,
    ((claim_C7_refinement_failure_semantics (fun _ => Except.error EvalError.keyError)
      (fun (_ : List ℤ) (_ : ℕ) => ([] : List ℤ))
      (fun (_ : List ℤ) (_ : ℕ) => ([] : List ℤ))
      ⟨0, [], []⟩ []).2.1 EvalError.keyError rfl).2.trans rfl⟩

/-- C9: refinement regenerates both sequences at the verification term count
`g_N_verify_terms = 1000` — its output depends on the generators only
through their value at that term count — and the whole phase is wrapped in
a working precision `refineWorkdps = 2 * 2000` decimal digits, at least the
configured verification precision `g_N_verify_dps = 2000`. -/
theorem claim_C9_verification_term_count_and_precision
    (evaluate : ℤ → Except EvalError (List MVal))
    (gA gA2 gB gB2 : List ℤ → ℕ → List ℤ)
    (hA : ∀ c, gA c g_N_verify_terms = gA2 c g_N_verify_terms)
    (hB : ∀ c, gB c g_N_verify_terms = gB2 c g_N_verify_terms)
    (ms : List GcfMatch) :
    refineResults evaluate gA gB ms = refineResults evaluate gA2 gB2 ms ∧
      g_N_verify_terms = 1000 ∧ g_N_verify_dps ≤ refineWorkdps ∧ g_N_verify_dps = 2000 := by
  refine ⟨?_, rfl, by rw [refineWorkdps]; omega, rfl⟩
  have hstep : ∀ res, refineStep evaluate gA gB res = refineStep evaluate gA2 gB2 res := by
    intro res
    unfold refineStep
    cases hev : evaluate res.lhs_key with
    | error e => rfl
    | ok vals =>
      dsimp only
      rw [hA res.rhs_an_poly, hB res.rhs_bn_poly]
  unfold refineResults
  rw [funext hstep]

theorem claim_C9_witness :
    refineResults (fun _ => Except.error EvalError.keyError)
        (fun (_ : List ℤ) (_ : ℕ) => ([] : List ℤ))
        (fun (_ : List ℤ) (_ : ℕ) => ([] : List ℤ)) [] =
      refineResults (fun _ => Except.error EvalError.keyError)
        (fun (_ : List ℤ) (_ : ℕ) => ([] : List ℤ))
        (fun (_ : List ℤ) (_ : ℕ) => ([] : List ℤ)) [] ∧
      g_N_verify_terms = 1000 ∧ g_N_verify_dps ≤ refineWorkdps ∧ g_N_verify_dps = 2000 :=
  claim_C9_verification_term_count_and_precision (fun _ => Except.error EvalError.keyError)
    (fun (_ : List ℤ) (_ : ℕ) => ([] : List ℤ)) (fun (_ : List ℤ) (_ : ℕ) => ([] : List ℤ))
    (fun (_ : List ℤ) (_ : ℕ) => ([] : List ℤ)) (fun (_ : List ℤ) (_ : ℕ) => ([] : List ℤ))
    (fun _ => rfl) (fun _ => rfl) []

/-! ### Soundness of the spec-modelled renderer

`nstrModel` is credible as "the first `d` significant decimal digits" only if
`decExponent` really is the decimal exponent; these lemmas verify that, and
that the mantissa of a nonzero value always has exactly `d` digits. -/

theorem log10fuel_bounds : ∀ fuel n : ℕ, 1 ≤ n → n ≤ fuel →
    10 ^ log10fuel fuel n ≤ n ∧ n < 10 ^ (log10fuel fuel n + 1) := by
  intro fuel
  induction fuel with
  | zero => intro n h1 h2; omega
  | succ fuel ih =>
    intro n h1 h2
    rw [log10fuel]
    by_cases hlt : n < 10
    · rw [if_pos hlt]
      constructor
      · simpa using h1
      · simpa using hlt
    · rw [if_neg hlt]
      have hdiv1 : 1 ≤ n / 10 := by omega
      have hdivfuel : n / 10 ≤ fuel := by omega
      obtain ⟨hl, hr⟩ := ih (n / 10) hdiv1 hdivfuel
      have e1 : 10 ^ (log10fuel fuel (n / 10) + 1) = 10 ^ log10fuel fuel (n / 10) * 10 :=
        pow_succ 10 _
      have e2 : 10 ^ (log10fuel fuel (n / 10) + 1 + 1) =
          10 ^ (log10fuel fuel (n / 10) + 1) * 10 := pow_succ 10 _
      omega

theorem natLog10_bounds (n : ℕ) (h : 1 ≤ n) :
    10 ^ natLog10 n ≤ n ∧ n < 10 ^ (natLog10 n + 1) :=
  log10fuel_bounds n n h le_rfl

theorem abs_eq_natAbs_div_den (x : ℚ) : |x| = (x.num.natAbs : ℚ) / (x.den : ℚ) := by
  rw [← Rat.num_div_den x, abs_div]
  rw [abs_of_pos (by exact_mod_cast x.den_pos : (0:ℚ) < (x.den : ℚ))]
  rw [Rat.num_div_den x]
  congr 1
  rw [Int.cast_natAbs, Int.cast_abs]

theorem decExponent_bounds (x : ℚ) (hx : x ≠ 0) :
    (10 : ℚ) ^ decExponent x ≤ |x| ∧ |x| < (10 : ℚ) ^ (decExponent x + 1) := by
  have hpnum : x.num ≠ 0 := Rat.num_ne_zero.mpr hx
  have hp : 1 ≤ x.num.natAbs := by omega
  have hqn : 0 < x.den := x.den_pos
  have habs : |x| = (x.num.natAbs : ℚ) / (x.den : ℚ) := abs_eq_natAbs_div_den x
  rw [decExponent]
  dsimp only
  set p := x.num.natAbs with hpdef
  set q := x.den with hqdef
  have hqQ : (0 : ℚ) < (q : ℚ) := by exact_mod_cast hqn
  by_cases hpq : q ≤ p
  · rw [if_pos hpq]
    obtain ⟨hl, hr⟩ := natLog10_bounds (p / q) ((Nat.one_le_div_iff hqn).mpr hpq)
    set k := natLog10 (p / q) with hkdef
    constructor
    · rw [zpow_natCast, habs, le_div_iff₀ hqQ]
      have hn : (10 : ℕ) ^ k * q ≤ p := by
        have h2 : 10 ^ k * q ≤ (p / q) * q := Nat.mul_le_mul_right q hl
        have h3 := Nat.div_mul_le_self p q
        omega
      exact_mod_cast hn
    · rw [show ((k : ℤ) + 1) = ((k + 1 : ℕ) : ℤ) by push_cast; ring, zpow_natCast,
        habs, div_lt_iff₀ hqQ]
      have hn : p < (10 : ℕ) ^ (k + 1) * q := by
        have hmod := Nat.div_add_mod p q
        have hmlt : p % q < q := Nat.mod_lt p hqn
        have h4 : (p / q + 1) * q ≤ 10 ^ (k + 1) * q := Nat.mul_le_mul_right q (by omega)
        calc p = q * (p / q) + p % q := hmod.symm
          _ < (p / q + 1) * q := by ring_nf; omega
          _ ≤ 10 ^ (k + 1) * q := h4
      exact_mod_cast hn
  · rw [if_neg hpq]
    have hpn : 0 < p := hp
    have hpQ : (0 : ℚ) < (p : ℚ) := by exact_mod_cast hpn
    obtain ⟨hl, hr⟩ := natLog10_bounds (q / p) ((Nat.one_le_div_iff hpn).mpr (by omega))
    set k := natLog10 (q / p) with hkdef
    have hup : (10 : ℕ) ^ k * p ≤ q := by
      have h2 : 10 ^ k * p ≤ (q / p) * p := Nat.mul_le_mul_right p hl
      have h3 := Nat.div_mul_le_self q p
      omega
    have hlow : q < (10 : ℕ) ^ (k + 1) * p := by
      have hmod := Nat.div_add_mod q p
      have hmlt : q % p < p := Nat.mod_lt q hpn
      have h4 : (q / p + 1) * p ≤ 10 ^ (k + 1) * p := Nat.mul_le_mul_right p (by omega)
      calc q = p * (q / p) + q % p := hmod.symm
        _ < (q / p + 1) * p := by ring_nf; omega
        _ ≤ 10 ^ (k + 1) * p := h4
    have h10k : (0 : ℚ) < (10 : ℚ) ^ k := by positivity
    by_cases heq : |x| * (10 : ℚ) ^ k = 1
    · rw [if_pos heq]
      have habs10 : |x| = ((10 : ℚ) ^ k)⁻¹ := by
        rw [inv_eq_one_div, eq_div_iff (ne_of_gt h10k)]
        exact heq
      constructor
      · rw [habs10, zpow_neg, zpow_natCast]
      · rw [habs10]
        have hz : (10 : ℚ) ^ (-(k : ℤ) + 1) = 10 * ((10 : ℚ) ^ k)⁻¹ := by
          rw [zpow_add₀ (by norm_num : (10 : ℚ) ≠ 0), zpow_neg, zpow_natCast, zpow_one]
          ring
        rw [hz]
        have hy : (0 : ℚ) < ((10 : ℚ) ^ k)⁻¹ := by positivity
        linarith
    · rw [if_neg heq]
      have h10k1 : (0 : ℚ) < (10 : ℚ) ^ (k + 1) := by positivity
      constructor
      · rw [show (-(k : ℤ) - 1) = -((k + 1 : ℕ) : ℤ) by push_cast; ring, zpow_neg,
          zpow_natCast, habs, inv_eq_one_div, div_le_div_iff₀ h10k1 hqQ]
        have : (q : ℚ) ≤ (10 : ℚ) ^ (k + 1) * (p : ℚ) := by
          have := hlow
          have hcast : (q : ℚ) < ((10 : ℕ) ^ (k + 1) * p : ℕ) := by exact_mod_cast this
          push_cast at hcast
          linarith
        linarith
      · rw [show (-(k : ℤ) - 1 + 1) = -(k : ℤ) by ring, zpow_neg, zpow_natCast, habs,
          inv_eq_one_div, div_lt_div_iff₀ hqQ h10k]
        have hne : (p : ℚ) * (10 : ℚ) ^ k ≠ (q : ℚ) := by
          intro hcontra
          apply heq
          rw [habs, div_mul_eq_mul_div, hcontra, div_self (ne_of_gt hqQ)]
        have hle : (p : ℚ) * (10 : ℚ) ^ k ≤ (q : ℚ) := by
          have hcast : ((10 : ℕ) ^ k * p : ℕ) ≤ (q : ℚ) := by exact_mod_cast hup
          push_cast at hcast
          linarith
        have := lt_of_le_of_ne hle hne
        linarith

theorem nstrModel_mantissa_bounds (d : ℕ) (hd : 1 ≤ d) (x : ℚ) (hx : x ≠ 0) :
    (10 : ℤ) ^ (d - 1) ≤ ⌊|x| * (10 : ℚ) ^ ((d : ℤ) - 1 - decExponent x)⌋ ∧
      ⌊|x| * (10 : ℚ) ^ ((d : ℤ) - 1 - decExponent x)⌋ < (10 : ℤ) ^ d := by
  obtain ⟨hl, hr⟩ := decExponent_bounds x hx
  set e := decExponent x with hedef
  have h10 : (10 : ℚ) ≠ 0 := by norm_num
  have hscale : (0 : ℚ) < (10 : ℚ) ^ ((d : ℤ) - 1 - e) := by positivity
  have hlow : (10 : ℚ) ^ ((d : ℤ) - 1) ≤ |x| * (10 : ℚ) ^ ((d : ℤ) - 1 - e) := by
    calc (10 : ℚ) ^ ((d : ℤ) - 1) = (10 : ℚ) ^ e * (10 : ℚ) ^ ((d : ℤ) - 1 - e) := by
          rw [← zpow_add₀ h10]
          ring_nf
      _ ≤ |x| * (10 : ℚ) ^ ((d : ℤ) - 1 - e) := by
          exact mul_le_mul_of_nonneg_right hl (le_of_lt hscale)
  have hhigh : |x| * (10 : ℚ) ^ ((d : ℤ) - 1 - e) < (10 : ℚ) ^ (d : ℤ) := by
    calc |x| * (10 : ℚ) ^ ((d : ℤ) - 1 - e) <
          (10 : ℚ) ^ (e + 1) * (10 : ℚ) ^ ((d : ℤ) - 1 - e) := by
          exact mul_lt_mul_of_pos_right hr hscale
      _ = (10 : ℚ) ^ (d : ℤ) := by
          rw [← zpow_add₀ h10]
          ring_nf
  constructor
  · apply Int.le_floor.mpr
    calc (((10 : ℤ) ^ (d - 1) : ℤ) : ℚ) = (10 : ℚ) ^ ((d : ℤ) - 1) := by
          push_cast
          rw [← zpow_natCast (10 : ℚ) (d - 1)]
          congr 1
          omega
      _ ≤ |x| * (10 : ℚ) ^ ((d : ℤ) - 1 - e) := hlow
  · apply Int.floor_lt.mpr
    calc |x| * (10 : ℚ) ^ ((d : ℤ) - 1 - e) < (10 : ℚ) ^ (d : ℤ) := hhigh
      _ = (((10 : ℤ) ^ d : ℤ) : ℚ) := by
          push_cast
          rw [← zpow_natCast (10 : ℚ) d]

